import Mathlib

/-!
Verification of the command evaluation engine of kati (`src/command.cc`):
automatic variables, command-modifier parsing, line splitting, and the
per-node `CommandEvaluator::Eval` orchestration.

Strings are modelled as `List Char`.  Helper routines that live in other
translation units of the repository (strutil, fileutil, eval, log) are
modelled from the specification and carry a doc comment saying so; all
logic of `command.cc` itself is translated directly from the source.
-/

namespace Kati

/-- Modelled from the spec: whitespace for token splitting and trimming
(`TrimLeftSpace` / `WordScanner` live in strutil, outside `command.cc`). -/
def isWS (c : Char) : Bool :=
  c = ' ' || c = '\t' || c = '\n' || c = '\r'

/-- Modelled from the spec: `TrimLeftSpace` drops leading whitespace. -/
def TrimLeftSpace (s : List Char) : List Char :=
  s.dropWhile isWS

/--
`ParseCommandPrefixes` from `command.cc`: the loop body after the initial
trim.  `s->get(0)` yields `'\0'` on an empty piece, which hits the `break`
branch, hence the `[]` case returns directly.  Each consumed modifier
character is followed by `*s = TrimLeftSpace(s->substr(1))`.
-/
def parsePrefixLoop : List Char → Bool → Bool → List Char × Bool × Bool
  | [], echo, ignore_error => ([], echo, ignore_error)
  | c :: r, echo, ignore_error =>
    if c = '@' then parsePrefixLoop (TrimLeftSpace r) false ignore_error
    else if c = '-' then parsePrefixLoop (TrimLeftSpace r) echo true
    else if c = '+' then parsePrefixLoop (TrimLeftSpace r) echo ignore_error
    else (c :: r, echo, ignore_error)
  termination_by s _ _ => s.length
  decreasing_by
    all_goals
      have h : ∀ l : List Char, (List.dropWhile isWS l).length ≤ l.length := by
        intro l
        induction l with
        | nil => simp [List.dropWhile]
        | cons a t ih =>
          simp only [List.dropWhile]
          split
          · simp only [List.length_cons]
            omega
          · simp
      simpa [TrimLeftSpace] using Nat.lt_succ_of_le (h r)

/-- `ParseCommandPrefixes` from `command.cc`: initial
`*s = TrimLeftSpace(*s)` followed by the modifier loop. -/
def ParseCommandPrefixes (s : List Char) (echo ignore_error : Bool) :
    List Char × Bool × Bool :=
  parsePrefixLoop (TrimLeftSpace s) echo ignore_error

/-- Modelled from the spec: `WordWriter` (strutil) joins the written words
with single spaces. -/
def joinWords (ws : List (List Char)) : List Char :=
  List.intercalate [' '] ws

/-- Modelled from the spec: `WordScanner` (strutil) splits a string into
whitespace-delimited tokens, with no quoting semantics. -/
def WordScanner : List Char → List (List Char)
  | [] => []
  | c :: r =>
    if h : isWS c then WordScanner r
    else
      (c :: r).takeWhile (fun x => !isWS x) ::
        WordScanner ((c :: r).dropWhile (fun x => !isWS x))
  termination_by s => s.length
  decreasing_by
    · simp
    · have hc : (!isWS c) = true := by simp [h]
      simp only [List.dropWhile, hc]
      have h2 : ∀ l : List Char,
          (List.dropWhile (fun x => !isWS x) l).length ≤ l.length := by
        intro l
        induction l with
        | nil => simp [List.dropWhile]
        | cons a t ih =>
          simp only [List.dropWhile]
          split
          · simp only [List.length_cons]
            omega
          · simp
      simpa using Nat.lt_succ_of_le (h2 r)

/-- Modelled from the spec: `Dirname` (strutil) extracts the directory part
of a path-like token; a token with no directory component maps to `"."`. -/
def Dirname (s : List Char) : List Char :=
  match (s.reverse.takeWhile (fun c => c ≠ '/')).length with
  | n =>
    if n = s.length then ['.']
    else if s.length - n - 1 = 0 then ['/']
    else s.take (s.length - n - 1)

/-- Modelled from the spec: `Basename` (strutil) extracts the file-name part
of a path-like token; a bare filename maps to itself. -/
def Basename (s : List Char) : List Char :=
  (s.reverse.takeWhile (fun c => c ≠ '/')).reverse

/-- Modelled from the spec: the pattern-matching utility splits a
single-wildcard pattern at its first `%`, giving the literal parts before
and after the wildcard (`none` when the pattern has no wildcard). -/
def patternSplit (pat : List Char) : Option (List Char × List Char) :=
  if '%' ∈ pat then
    some (pat.takeWhile (fun c => c ≠ '%'), (pat.dropWhile (fun c => c ≠ '%')).drop 1)
  else
    none

/-- Modelled from the spec: `Pattern::Stem` — match a name against a
single-wildcard pattern and extract the stem (the substring matched by the
wildcard); empty when the name does not match or there is no wildcard. -/
def Pattern.Stem (pat str : List Char) : List Char :=
  match patternSplit pat with
  | none => []
  | some (bef, aft) =>
    if bef.length + aft.length ≤ str.length ∧
        str.take bef.length = bef ∧
        str.drop (str.length - aft.length) = aft then
      (str.drop bef.length).take (str.length - bef.length - aft.length)
    else
      []

/-- Modelled from the spec: substituting a stem back into a single-wildcard
pattern replaces the `%` by the stem (used only to state what the spec's
words would compute for `$*`). -/
def Pattern.Subst (pat stem : List Char) : List Char :=
  match patternSplit pat with
  | none => pat
  | some (bef, aft) => bef ++ stem ++ aft

/-- `Command` from `command.h`: output name, command text, echo flag,
ignore-error flag. -/
structure Command where
  output : List Char
  cmd : List Char
  echo : Bool
  ignore_error : Bool
  deriving Repr, DecidableEq

instance {α β : Type} [DecidableEq α] [DecidableEq β] :
    DecidableEq (Except α β) := fun a b =>
  match a, b with
  | .ok x, .ok y => decidable_of_iff (x = y) (by simp)
  | .error x, .error y => decidable_of_iff (x = y) (by simp)
  | .ok _, .error _ => isFalse (by simp)
  | .error _, .ok _ => isFalse (by simp)

/--
A raw command template attached to a `DepNode` (`Value*` in `n.cmds`).
The general evaluator that expands it lives outside `command.cc`, so the
outcome of `v->Eval(ev_)` is part of the input: its location, the expanded
text (or a fatal abort of the expansion, per the spec's UpstreamAbort), and
the delayed-output command strings the expansion enqueues as a side effect.
-/
structure CmdTemplate where
  loc : Nat
  result : Except Unit (List Char)
  enqueued : List (List Char)
  deriving Repr, DecidableEq

/-- `DepNode` from `dep.h`, restricted to the fields `command.cc` reads:
output name, prerequisite list (`actual_inputs`), optional output pattern
(`none` models an invalid `Symbol`), rule variable scope (abstract handle),
source location, and the command templates. -/
structure DepNode where
  output : List Char
  actual_inputs : List (List Char)
  output_pattern : Option (List Char)
  rule_vars : Option Nat
  loc : Nat
  cmds : List CmdTemplate
  deriving Repr, DecidableEq

/-- Modelled from the spec: the mutable evaluation context held by the
general evaluator (`eval.h`, outside `command.cc`) plus the
`CommandEvaluator`'s own `current_dep_node_`: current location, current
variable scope, the "evaluating command" flag, the delayed-output command
queue, and the current dependency node. -/
structure EvalState where
  loc : Nat
  currentScope : Option Nat
  evaluatingCommand : Bool
  delayedOutputCommands : List (List Char)
  currentDepNode : Option DepNode
  deriving Repr, DecidableEq

/-- The node-resolution context seen by an automatic variable:
`ev->current_dep_node` (an override installed by nested expansion) and the
`CommandEvaluator`'s `current_dep_node()`. -/
structure AutoVarCtx where
  evCurrentDepNode : Option DepNode
  ceCurrentDepNode : DepNode
  deriving Repr, DecidableEq

/-- `AutoVar::CurrentDepNode` from `command.cc`: prefer the evaluator's
override node, else the enclosing evaluation's node. -/
def CurrentDepNode (ctx : AutoVarCtx) : DepNode :=
  match ctx.evCurrentDepNode with
  | some n => n
  | none => ctx.ceCurrentDepNode

/-- A diagnostic message reported through the evaluator's channel, with its
severity. -/
structure Diag where
  isFatal : Bool
  msg : List Char
  deriving Repr, DecidableEq

/-- `AutoAtVar::Eval` from `command.cc`: the node's output name. -/
def AutoAtVar.eval (ctx : AutoVarCtx) : List Char :=
  (CurrentDepNode ctx).output

/-- `AutoLessVar::Eval` from `command.cc`: the first prerequisite, if any. -/
def AutoLessVar.eval (ctx : AutoVarCtx) : List Char :=
  match (CurrentDepNode ctx).actual_inputs with
  | [] => []
  | ai :: _ => ai

/-- The loop of `AutoHatVar::Eval`: write each prerequisite whose insertion
into the `seen` set succeeds (i.e. whose name was not seen before). -/
def autoHatLoop : List (List Char) → List (List Char) → List (List Char)
  | [], _ => []
  | ai :: rest, seen =>
    if ai ∈ seen then autoHatLoop rest seen
    else ai :: autoHatLoop rest (ai :: seen)

/-- `AutoHatVar::Eval` from `command.cc`: prerequisites de-duplicated by a
`seen` set, space-joined by `WordWriter`. -/
def AutoHatVar.eval (ctx : AutoVarCtx) : List Char :=
  joinWords (autoHatLoop (CurrentDepNode ctx).actual_inputs [])

/-- `AutoPlusVar::Eval` from `command.cc`: all prerequisites in order,
space-joined by `WordWriter`. -/
def AutoPlusVar.eval (ctx : AutoVarCtx) : List Char :=
  joinWords (CurrentDepNode ctx).actual_inputs

/-- `AutoStarVar::Eval` from `command.cc`: if the output pattern is not
valid, return with `s` untouched; otherwise append the stem of the output
matched against the pattern. -/
def AutoStarVar.eval (ctx : AutoVarCtx) : List Char :=
  let n := CurrentDepNode ctx
  match n.output_pattern with
  | none => []
  | some pat => Pattern.Stem pat n.output

/-- The loop of `AutoQuestionVar::Eval`: `seen.insert(ai).second` is
evaluated first, so every first occurrence enters `seen`; the name is
written only when it is a first occurrence and its timestamp exceeds the
target's. -/
def autoQuestionLoop (ts : List Char → Int) (target_age : Int) :
    List (List Char) → List (List Char) → List (List Char)
  | [], _ => []
  | ai :: rest, seen =>
    if ai ∉ seen ∧ ts ai > target_age then
      ai :: autoQuestionLoop ts target_age rest (ai :: seen)
    else
      autoQuestionLoop ts target_age rest
        (if ai ∈ seen then seen else ai :: seen)

/-- `AutoQuestionVar::Eval` from `command.cc`: prerequisites strictly newer
than the target, de-duplicated by a `seen` set.  `GetTimestamp` (fileutil,
outside `command.cc`) is the timestamp provider `ts`.  The output is read
through `CurrentDepNode(ev)` but the prerequisites come from
`ce_->current_dep_node()` directly, as in the source. -/
def AutoQuestionVar.eval (ts : List Char → Int) (ctx : AutoVarCtx) : List Char :=
  let target_age := ts (CurrentDepNode ctx).output
  joinWords (autoQuestionLoop ts target_age ctx.ceCurrentDepNode.actual_inputs [])

/-- The message built by `AutoNotImplementedVar::Eval` via `StringPrintf`. -/
def autoNotImplementedMsg (sym : List Char) : List Char :=
  ("Automatic variable `$".toList) ++ sym ++ ("' isn't supported yet".toList)

/-- `AutoNotImplementedVar::Eval` from `command.cc`: report through
`ev->Error` and write nothing.  Modelled from the spec: the diagnostic
channel is non-fatal; the reference resolves to empty text and evaluation
continues. -/
def AutoNotImplementedVar.eval (sym : List Char) : List Char × List Diag :=
  ([], [⟨false, autoNotImplementedMsg sym⟩])

/-- `AutoSuffixDVar::Eval` from `command.cc`: evaluate the wrapped variable
into `buf`, then write `Dirname` of each scanned word. -/
def AutoSuffixDVar.eval (buf : List Char) : List Char :=
  joinWords ((WordScanner buf).map Dirname)

/-- `AutoSuffixFVar::Eval` from `command.cc`: evaluate the wrapped variable
into `buf`, then write `Basename` of each scanned word. -/
def AutoSuffixFVar.eval (buf : List Char) : List Char :=
  joinWords ((WordScanner buf).map Basename)

/-- `AutoVar::Flavor` from `command.cc`. -/
def AutoVar.Flavor : List Char := "undefined".toList

/-- `AutoVar::IsFunc` from `command.cc`. -/
def AutoVar.IsFunc : Bool := true

/-- The message built by `AutoVar::String` via `ERROR`. -/
def autoVarStringMsg (sym : List Char) : List Char :=
  ("$(value ".toList) ++ sym ++ (") is not implemented yet".toList)

/-- `AutoVar::String` from `command.cc`: report the "not implemented"
message and return the empty string.  Modelled from the spec: the
diagnostic is non-fatal and evaluation continues. -/
def AutoVar.String (sym : List Char) : List Char × List Diag :=
  ([], [⟨false, autoVarStringMsg sym⟩])

/-- The base automatic-variable classes registered by the
`CommandEvaluator` constructor. -/
inductive BaseAutoVar where
  | atVar | lessVar | hatVar | plusVar | starVar | questionVar | notImplementedVar
  deriving Repr, DecidableEq

/-- One registered name: a base variable or one of the two derived
suffix forms wrapping a base variable. -/
inductive AutoVarEntry where
  | base (b : BaseAutoVar)
  | suffixD (b : BaseAutoVar)
  | suffixF (b : BaseAutoVar)
  deriving Repr, DecidableEq

/-- The `INSERT_AUTO_VAR` macro from `command.cc`: register the base
variable under `sym`, and its `D` and `F` derived forms under `symD` and
`symF`. -/
def INSERT_AUTO_VAR (sym : List Char) (b : BaseAutoVar) :
    List (List Char × AutoVarEntry) :=
  [(sym, .base b), (sym ++ ['D'], .suffixD b), (sym ++ ['F'], .suffixF b)]

/-- The registration table built by the `CommandEvaluator` constructor in
`command.cc`, as a function of `g_flags.generate_ninja` (the restricted
generation mode). -/
def commandEvaluatorAutoVars (generate_ninja : Bool) :
    List (List Char × AutoVarEntry) :=
  INSERT_AUTO_VAR ['@'] .atVar ++
  INSERT_AUTO_VAR ['<'] .lessVar ++
  INSERT_AUTO_VAR ['^'] .hatVar ++
  INSERT_AUTO_VAR ['+'] .plusVar ++
  INSERT_AUTO_VAR ['*'] .starVar ++
  (if !generate_ninja then
    INSERT_AUTO_VAR ['?'] .questionVar
  else
    INSERT_AUTO_VAR ['?'] .notImplementedVar) ++
  INSERT_AUTO_VAR ['%'] .notImplementedVar ++
  INSERT_AUTO_VAR ['|'] .notImplementedVar

/-- Evaluation of a base automatic variable (the dispatch over the
`Eval` overrides in `command.cc`), returning the produced text and any
diagnostics. -/
def BaseAutoVar.eval (ts : List Char → Int) (ctx : AutoVarCtx) (sym : List Char) :
    BaseAutoVar → List Char × List Diag
  | .atVar => (AutoAtVar.eval ctx, [])
  | .lessVar => (AutoLessVar.eval ctx, [])
  | .hatVar => (AutoHatVar.eval ctx, [])
  | .plusVar => (AutoPlusVar.eval ctx, [])
  | .starVar => (AutoStarVar.eval ctx, [])
  | .questionVar => (AutoQuestionVar.eval ts ctx, [])
  | .notImplementedVar => AutoNotImplementedVar.eval sym

/-- Evaluation of a registered automatic-variable entry: a base variable
directly, or a suffix form applied to the wrapped base variable's text. -/
def AutoVarEntry.eval (ts : List Char → Int) (ctx : AutoVarCtx) (sym : List Char) :
    AutoVarEntry → List Char × List Diag
  | .base b => b.eval ts ctx sym
  | .suffixD b =>
    let (buf, ds) := b.eval ts ctx sym
    (AutoSuffixDVar.eval buf, ds)
  | .suffixF b =>
    let (buf, ds) := b.eval ts ctx sym
    (AutoSuffixFVar.eval buf, ds)

/-- Modelled from the spec: the scan of `FindEndOfLine` (strutil) — find
the next line terminator not escaped by a continuation marker; backslashes
toggle the escaped state, any other character clears it. -/
def findEOL : List Char → Bool → Nat
  | [], _ => 0
  | c :: r, esc =>
    if c = '\n' ∧ esc = false then 0
    else 1 + findEOL r (if c = '\\' then !esc else false)

/-- Modelled from the spec: `FindEndOfLine` (strutil) returns the offset of
the next unescaped line terminator, or the size of the string if there is
none. -/
def FindEndOfLine (s : List Char) : Nat :=
  findEOL s false

/-- The body of one iteration of the inner `while (true)` loop of
`CommandEvaluator::Eval` (lines 233–245): trim the segment, parse its own
modifier characters starting from the block-level flags, and keep a
`Command` only when the remaining text is non-empty. -/
def lineCommand (out : List Char) (global_echo global_ignore_error : Bool)
    (line : List Char) : Option Command :=
  let parsed := ParseCommandPrefixes (TrimLeftSpace line)
    global_echo global_ignore_error
  if parsed.1 = [] then none
  else some ⟨out, parsed.1, parsed.2.1, parsed.2.2⟩

/--
The inner `while (true)` loop of `CommandEvaluator::Eval`: take the text up
to the next unescaped line terminator (`index == cmds.size` becomes `npos`,
in which case `substr(0, npos)` is the whole rest and the loop breaks after
the iteration), process the segment (`lineCommand`), and continue with the
text after the terminator.
-/
def evalLines (out : List Char) (global_echo global_ignore_error : Bool)
    (cmds : List Char) : List Command :=
  (lineCommand out global_echo global_ignore_error
      (cmds.take (FindEndOfLine cmds))).toList ++
  (if FindEndOfLine cmds = cmds.length then []
   else evalLines out global_echo global_ignore_error
     (cmds.drop (FindEndOfLine cmds + 1)))
  termination_by cmds.length
  decreasing_by
    have hle : ∀ (l : List Char) (esc : Bool), findEOL l esc ≤ l.length := by
      intro l
      induction l with
      | nil => intro esc; simp [findEOL]
      | cons a t ih =>
        intro esc
        simp only [findEOL]
        split
        · simp
        · have := ih (if a = '\\' then !esc else false)
          simp only [List.length_cons]
          omega
    have h1 : FindEndOfLine cmds ≤ cmds.length := hle cmds false
    simp only [List.length_drop]
    omega

/-- The line splitter on its own terms: the segments of the text between
unescaped line terminators, in order, untrimmed. -/
def splitEOL (s : List Char) : List (List Char) :=
  if FindEndOfLine s = s.length then [s]
  else s.take (FindEndOfLine s) :: splitEOL (s.drop (FindEndOfLine s + 1))
  termination_by s.length
  decreasing_by
    have hle : ∀ (l : List Char) (esc : Bool), findEOL l esc ≤ l.length := by
      intro l
      induction l with
      | nil => intro esc; simp [findEOL]
      | cons a t ih =>
        intro esc
        simp only [findEOL]
        split
        · simp
        · have := ih (if a = '\\' then !esc else false)
          simp only [List.length_cons]
          omega
    have h1 : FindEndOfLine s ≤ s.length := hle s false
    simp only [List.length_drop]
    omega

/-- The per-template part of `CommandEvaluator::Eval`: block-level flags
start from `!g_flags.is_silent_mode` and `false`, the block-level modifier
characters are stripped, an empty block contributes nothing (`continue`),
and otherwise the block is split into lines. -/
def templateCommands (is_silent_mode : Bool) (out : List Char)
    (cmds_buf : List Char) : List Command :=
  let parsed := ParseCommandPrefixes cmds_buf (!is_silent_mode) false
  if parsed.1 = [] then []
  else evalLines out parsed.2.1 parsed.2.2 parsed.1

/-- The `for (Value* v : n.cmds)` loop of `CommandEvaluator::Eval`: set the
location to the template's, expand it (a fatal abort propagates, leaving
the state as it was at the abort), record the delayed-output commands the
expansion enqueued, and accumulate the template's commands. -/
def evalTemplates (is_silent_mode : Bool) (out : List Char) :
    List CmdTemplate → EvalState → Except EvalState (List Command × EvalState)
  | [], st => .ok ([], st)
  | t :: ts, st =>
    match t.result with
    | .error _ => .error { st with loc := t.loc }
    | .ok text =>
      match evalTemplates is_silent_mode out ts
        { st with
            loc := t.loc
            delayedOutputCommands := st.delayedOutputCommands ++ t.enqueued } with
      | .error st' => .error st'
      | .ok (rest, st') =>
        .ok (templateCommands is_silent_mode out text ++ rest, st')

/--
`CommandEvaluator::Eval` from `command.cc`: install the per-call context
(location, scope, evaluating-command flag, current node), process the
templates, then, if the delayed-output queue is non-empty, build one
`Command{output: n.output, echo: false, ignore_error: false}` per queued
string, swap them with `result` and copy the old `result` behind them
(so the delayed commands come first), and clear the queue; finally clear
the scope and the flag and return.  A fatal abort during template expansion
propagates before the final two restore statements run.
-/
def CommandEvaluator.Eval (is_silent_mode : Bool) (st0 : EvalState)
    (n : DepNode) : Except EvalState (List Command × EvalState) :=
  let st := { st0 with loc := n.loc, currentScope := n.rule_vars,
                       evaluatingCommand := true, currentDepNode := some n }
  match evalTemplates is_silent_mode n.output n.cmds st with
  | .error st' => .error st'
  | .ok (result, st1) =>
    let merged :=
      if st1.delayedOutputCommands ≠ [] then
        let output_commands : List Command :=
          st1.delayedOutputCommands.map (fun c => ⟨n.output, c, false, false⟩)
        -- result.swap(output_commands): afterwards `result` holds the
        -- delayed commands and `output_commands` holds the template
        -- commands; the copy appends the template commands behind them.
        let result2 := output_commands ++ result
        (result2, { st1 with delayedOutputCommands := [] })
      else
        (result, st1)
    .ok (merged.1,
      { merged.2 with currentScope := none, evaluatingCommand := false })

/-- First-occurrence de-duplication stated independently of the `seen`-set
loops: keep each element and drop its later duplicates. -/
def keepFirsts : List (List Char) → List (List Char)
  | [] => []
  | x :: r => x :: (keepFirsts r).filter (fun y => y ≠ x)

/-- The commands a template contributes when its expansion succeeds
(a failing expansion contributes nothing: the evaluation aborts). -/
def templateOkCommands (is_silent_mode : Bool) (out : List Char)
    (t : CmdTemplate) : List Command :=
  match t.result with
  | .ok text => templateCommands is_silent_mode out text
  | .error _ => []

/-- Filtering away later copies of an element the outer filter rejects
anyway changes nothing. -/
theorem filter_ne_absorb (p : List Char → Bool) (x : List Char)
    (hx : p x = false) (m : List (List Char)) :
    (m.filter (fun y => y ≠ x)).filter p = m.filter p := by
  rw [List.filter_filter]
  apply List.filter_congr
  intro a _
  by_cases hax : a = x
  · subst hax
    simp [hx]
  · simp [hax]

/-- `keepFirsts` commutes with an element-wise filter. -/
theorem keepFirsts_filter (p : List Char → Bool) (l : List (List Char)) :
    keepFirsts (l.filter p) = (keepFirsts l).filter p := by
  induction l with
  | nil => simp [keepFirsts]
  | cons x r ih =>
    simp only [List.filter_cons]
    by_cases hx : p x = true
    · rw [if_pos hx, keepFirsts, keepFirsts, ih, List.filter_cons, if_pos hx,
        List.filter_comm]
    · rw [if_neg hx, ih, keepFirsts, List.filter_cons, if_neg hx,
        filter_ne_absorb p x (by simpa using hx)]

/-- Splitting off the newly seen element from a `seen`-set membership
filter. -/
theorem filter_notMem_cons (x : List Char) (seen : List (List Char))
    (r : List (List Char)) :
    r.filter (fun y => y ∉ (x :: seen)) =
      (r.filter (fun y => y ∉ seen)).filter (fun y => y ≠ x) := by
  rw [List.filter_filter]
  apply List.filter_congr
  intro a _
  by_cases hax : a = x
  · subst hax
    simp
  · by_cases has : a ∈ seen <;> simp [hax, has]

/-- The `seen`-set loop of `AutoHatVar::Eval` computes first-occurrence
de-duplication of the prerequisites not already seen. -/
theorem autoHatLoop_eq (l : List (List Char)) :
    ∀ seen, autoHatLoop l seen = keepFirsts (l.filter (fun x => x ∉ seen)) := by
  induction l with
  | nil => intro seen; rfl
  | cons x r ih =>
    intro seen
    simp only [List.filter_cons, decide_not]
    by_cases hx : x ∈ seen
    · rw [autoHatLoop, if_pos hx, ih, if_neg (by simp [hx])]
      simp only [decide_not]
    · have hs := filter_notMem_cons x seen r
      simp only [decide_not] at hs
      rw [autoHatLoop, if_neg hx, ih, if_pos (by simp [hx]), keepFirsts]
      simp only [decide_not]
      rw [hs, keepFirsts_filter]

/-- The `seen`-set loop of `AutoQuestionVar::Eval` computes first-occurrence
de-duplication followed by the strict-timestamp filter. -/
theorem autoQuestionLoop_eq (ts : List Char → Int) (age : Int)
    (l : List (List Char)) :
    ∀ seen, autoQuestionLoop ts age l seen =
      (keepFirsts (l.filter (fun x => x ∉ seen))).filter
        (fun ai => ts ai > age) := by
  induction l with
  | nil => intro seen; rfl
  | cons x r ih =>
    intro seen
    simp only [List.filter_cons, decide_not]
    by_cases hx : x ∈ seen
    · rw [autoQuestionLoop, if_neg (by simp [hx]), if_pos hx, ih,
        if_neg (by simp [hx])]
      simp only [decide_not]
    · have hs := filter_notMem_cons x seen r
      simp only [decide_not] at hs
      by_cases hts : ts x > age
      · rw [autoQuestionLoop, if_pos ⟨hx, hts⟩, ih, if_pos (by simp [hx]),
          keepFirsts, List.filter_cons, if_pos (by simpa using hts)]
        simp only [decide_not]
        rw [hs, keepFirsts_filter]
      · rw [autoQuestionLoop, if_neg (fun hcon => hts hcon.2), if_neg hx, ih,
          if_pos (by simp [hx]), keepFirsts, List.filter_cons,
          if_neg (by simpa using hts)]
        simp only [decide_not]
        rw [hs, keepFirsts_filter]

/-- The end-of-line scan never runs past the end of the string. -/
theorem findEOL_le (l : List Char) : ∀ esc, findEOL l esc ≤ l.length := by
  induction l with
  | nil => intro esc; simp [findEOL]
  | cons a t ih =>
    intro esc
    rw [findEOL]
    split
    · simp
    · have := ih (if a = '\\' then !esc else false)
      simp only [List.length_cons]
      omega

/-- The loop of `CommandEvaluator::Eval` over one expanded block is the
same as splitting the block at unescaped line terminators and processing
each segment (fuel-indexed form for the induction). -/
theorem evalLines_eq_split_fuel (out : List Char) (ge gi : Bool) :
    ∀ (k : Nat) (cmds : List Char), cmds.length ≤ k →
      evalLines out ge gi cmds =
        (splitEOL cmds).filterMap (lineCommand out ge gi) := by
  intro k
  induction k with
  | zero =>
    intro cmds h
    have hc : cmds = [] := List.length_eq_zero.mp (Nat.le_zero.mp h)
    subst hc
    have h0 : FindEndOfLine ([] : List Char) = ([] : List Char).length := by
      simp [FindEndOfLine, findEOL]
    rw [evalLines, splitEOL, if_pos h0, if_pos h0, List.filterMap_cons,
      List.filterMap_nil, List.take_nil]
    cases lineCommand out ge gi [] <;> simp
  | succ k ih =>
    intro cmds h
    rw [evalLines, splitEOL]
    by_cases hidx : FindEndOfLine cmds = cmds.length
    · rw [if_pos hidx, if_pos hidx, hidx, List.take_length,
        List.filterMap_cons, List.filterMap_nil]
      cases lineCommand out ge gi cmds <;> simp
    · rw [if_neg hidx, if_neg hidx, List.filterMap_cons]
      have hlt : FindEndOfLine cmds < cmds.length :=
        lt_of_le_of_ne (findEOL_le cmds false) hidx
      have hrec := ih (cmds.drop (FindEndOfLine cmds + 1)) (by
        simp only [List.length_drop]
        omega)
      rw [hrec]
      cases lineCommand out ge gi (cmds.take (FindEndOfLine cmds)) <;> simp

/-- `evalLines` is split-then-process. -/
theorem evalLines_eq_split (out : List Char) (ge gi : Bool)
    (cmds : List Char) :
    evalLines out ge gi cmds =
      (splitEOL cmds).filterMap (lineCommand out ge gi) :=
  evalLines_eq_split_fuel out ge gi cmds.length cmds le_rfl

/-- Template processing never touches the current scope, the
evaluating-command flag or the current node: it only moves the location and
grows the delayed-output queue.  This holds on the success state and on the
state a fatal abort propagates. -/
theorem evalTemplates_frame (is_silent_mode : Bool) (out : List Char) :
    ∀ (ts : List CmdTemplate) (st : EvalState),
      (∀ st', evalTemplates is_silent_mode out ts st = .error st' →
        st'.currentScope = st.currentScope ∧
        st'.evaluatingCommand = st.evaluatingCommand ∧
        st'.currentDepNode = st.currentDepNode) ∧
      (∀ cs st', evalTemplates is_silent_mode out ts st = .ok (cs, st') →
        st'.currentScope = st.currentScope ∧
        st'.evaluatingCommand = st.evaluatingCommand ∧
        st'.currentDepNode = st.currentDepNode) := by
  intro ts
  induction ts with
  | nil =>
    intro st
    constructor
    · intro st' h
      simp [evalTemplates] at h
    · intro cs st' h
      simp only [evalTemplates, Except.ok.injEq, Prod.mk.injEq] at h
      obtain ⟨h1, h2⟩ := h
      subst h2
      exact ⟨rfl, rfl, rfl⟩
  | cons t rest ih =>
    intro st
    constructor
    · intro st' h
      rcases hres : t.result with e | text
      · simp only [evalTemplates, hres, Except.error.injEq] at h
        subst h
        exact ⟨rfl, rfl, rfl⟩
      · simp only [evalTemplates, hres] at h
        rcases hrec : evalTemplates is_silent_mode out rest
            { st with
                loc := t.loc
                delayedOutputCommands := st.delayedOutputCommands ++ t.enqueued }
          with st2 | p
        · rw [hrec] at h
          simp only [Except.error.injEq] at h
          subst h
          exact (ih { st with
              loc := t.loc
              delayedOutputCommands :=
                st.delayedOutputCommands ++ t.enqueued }).1 _ hrec
        · rw [hrec] at h
          obtain ⟨cs2, st2⟩ := p
          simp at h
    · intro cs st' h
      rcases hres : t.result with e | text
      · simp only [evalTemplates, hres] at h
        exact Except.noConfusion h
      · simp only [evalTemplates, hres] at h
        rcases hrec : evalTemplates is_silent_mode out rest
            { st with
                loc := t.loc
                delayedOutputCommands := st.delayedOutputCommands ++ t.enqueued }
          with st2 | p
        · rw [hrec] at h
          simp at h
        · rw [hrec] at h
          obtain ⟨cs2, st2⟩ := p
          simp only [Except.ok.injEq, Prod.mk.injEq] at h
          obtain ⟨h1, h2⟩ := h
          subst h2
          exact (ih { st with
              loc := t.loc
              delayedOutputCommands :=
                st.delayedOutputCommands ++ t.enqueued }).2 cs2 _ hrec

/-- When every template expands successfully, template processing returns
the concatenation, in template-list order, of each template's own
commands. -/
theorem evalTemplates_ok_flatMap (is_silent_mode : Bool) (out : List Char) :
    ∀ (ts : List CmdTemplate) (st : EvalState),
      (∀ t ∈ ts, ∃ text, t.result = .ok text) →
      ∃ st', evalTemplates is_silent_mode out ts st =
        .ok (ts.flatMap (templateOkCommands is_silent_mode out), st') := by
  intro ts
  induction ts with
  | nil =>
    intro st _
    exact ⟨st, rfl⟩
  | cons t rest ih =>
    intro st hok
    obtain ⟨text, htext⟩ := hok t (List.mem_cons_self t rest)
    obtain ⟨st', hrec⟩ := ih
      { st with
          loc := t.loc
          delayedOutputCommands := st.delayedOutputCommands ++ t.enqueued }
      (fun u hu => hok u (List.mem_cons_of_mem t hu))
    refine ⟨st', ?_⟩
    simp only [evalTemplates, htext, hrec, List.flatMap_cons]
    simp [templateOkCommands, htext]

/-- Trimming never lengthens a string. -/
theorem trimLeftSpace_length_le (l : List Char) :
    (TrimLeftSpace l).length ≤ l.length := by
  unfold TrimLeftSpace
  induction l with
  | nil => simp [List.dropWhile]
  | cons a t ih =>
    simp only [List.dropWhile]
    split
    · simp only [List.length_cons]
      omega
    · simp

/-- Fuel-indexed monotonicity of the modifier loop: it can only turn echo
off and only turn ignore-error on. -/
theorem parsePrefixLoop_monotone :
    ∀ (k : Nat) (s : List Char), s.length ≤ k → ∀ (e i : Bool),
      ((parsePrefixLoop s e i).2.1 = true → e = true) ∧
      (i = true → (parsePrefixLoop s e i).2.2 = true) := by
  intro k
  induction k with
  | zero =>
    intro s h e i
    have hc : s = [] := List.length_eq_zero.mp (Nat.le_zero.mp h)
    subst hc
    rw [parsePrefixLoop]
    exact ⟨fun hh => hh, fun hh => hh⟩
  | succ k ih =>
    intro s h e i
    rcases s with _ | ⟨c, r⟩
    · rw [parsePrefixLoop]
      exact ⟨fun hh => hh, fun hh => hh⟩
    · have hr : (TrimLeftSpace r).length ≤ k := by
        have h1 := trimLeftSpace_length_le r
        simp only [List.length_cons] at h
        omega
      rw [parsePrefixLoop]
      by_cases hat : c = '@'
      · rw [if_pos hat]
        refine ⟨fun hh => ?_, (ih _ hr false i).2⟩
        exact absurd ((ih _ hr false i).1 hh) Bool.false_ne_true
      · rw [if_neg hat]
        by_cases hdash : c = '-'
        · rw [if_pos hdash]
          exact ⟨(ih _ hr e true).1, fun _ => (ih _ hr e true).2 rfl⟩
        · rw [if_neg hdash]
          by_cases hplus : c = '+'
          · rw [if_pos hplus]
            exact ih _ hr e i
          · rw [if_neg hplus]
            exact ⟨fun hh => hh, fun hh => hh⟩

/--
C4: for every input string and initial flag pair, `ParseCommandPrefixes`
trims leading whitespace, then repeatedly consumes one leading `@` (echo
off), `-` (ignore-error on) or `+` (discarded), trimming whitespace after
each consumed character and stopping at the first other character; the
stopping character and everything after it — modifiers included — is
returned verbatim as ordinary text.  `"@-echo hi"` gives echo=false,
ignore_error=true, text `"echo hi"`; `"@ -echo"` gives the same flags and
text `"echo"`.
-/
theorem parseCommandPrefixes_spec :
    (∀ (s : List Char) (echo ignore_error : Bool),
      ParseCommandPrefixes s echo ignore_error =
        match TrimLeftSpace s with
        | [] => ([], echo, ignore_error)
        | c :: r =>
          if c = '@' then ParseCommandPrefixes r false ignore_error
          else if c = '-' then ParseCommandPrefixes r echo true
          else if c = '+' then ParseCommandPrefixes r echo ignore_error
          else (c :: r, echo, ignore_error)) ∧
    ParseCommandPrefixes "@-echo hi".toList true false =
      ("echo hi".toList, false, true) ∧
    ParseCommandPrefixes "@ -echo".toList true false =
      ("echo".toList, false, true) := by
  refine ⟨?_, ?_, ?_⟩
  · intro s echo ignore_error
    rw [ParseCommandPrefixes]
    rcases h : TrimLeftSpace s with _ | ⟨c, r⟩
    · rw [parsePrefixLoop]
    · rw [parsePrefixLoop]
      rfl
  · simp +decide [ParseCommandPrefixes, parsePrefixLoop, TrimLeftSpace,
      List.dropWhile, isWS]
  · simp +decide [ParseCommandPrefixes, parsePrefixLoop, TrimLeftSpace,
      List.dropWhile, isWS]

/--
C10: the modifier parser is monotone in its flags — the echo flag it
returns implies the initial echo flag (parsing can only turn echoing off),
and the initial ignore-error flag implies the returned one (parsing can
only turn ignore-error on).
-/
theorem parseCommandPrefixes_monotone (s : List Char) (echo ignore_error : Bool) :
    ((ParseCommandPrefixes s echo ignore_error).2.1 = true → echo = true) ∧
    (ignore_error = true →
      (ParseCommandPrefixes s echo ignore_error).2.2 = true) := by
  unfold ParseCommandPrefixes
  exact parsePrefixLoop_monotone (TrimLeftSpace s).length (TrimLeftSpace s)
    le_rfl echo ignore_error

/-- Witness for C10 at concrete inputs: a non-modifier line keeps echo on,
and a pre-set ignore-error flag survives parsing. -/
theorem parseCommandPrefixes_monotone_witness :
    (true = true) ∧ (ParseCommandPrefixes ['x'] true true).2.2 = true := by
  constructor
  · exact (parseCommandPrefixes_monotone ['x'] true false).1
      (by simp +decide [ParseCommandPrefixes, parsePrefixLoop, TrimLeftSpace,
        List.dropWhile, isWS])
  · exact (parseCommandPrefixes_monotone ['x'] true true).2 rfl

/--
C5: `+` evaluates to all prerequisites space-joined in original order with
duplicates retained, and `^` to each distinct prerequisite exactly once,
space-joined in first-occurrence order over the same list; prerequisites
`[a.o, b.o, a.o, c.o]` give `^` = `"a.o b.o c.o"` and
`+` = `"a.o b.o a.o c.o"`.
-/
theorem autoHat_autoPlus_spec :
    (∀ ctx : AutoVarCtx,
      AutoHatVar.eval ctx =
        joinWords (keepFirsts (CurrentDepNode ctx).actual_inputs) ∧
      AutoPlusVar.eval ctx = joinWords (CurrentDepNode ctx).actual_inputs) ∧
    AutoHatVar.eval ⟨none, ⟨"t".toList,
        ["a.o".toList, "b.o".toList, "a.o".toList, "c.o".toList],
        none, none, 0, []⟩⟩ = "a.o b.o c.o".toList ∧
    AutoPlusVar.eval ⟨none, ⟨"t".toList,
        ["a.o".toList, "b.o".toList, "a.o".toList, "c.o".toList],
        none, none, 0, []⟩⟩ = "a.o b.o a.o c.o".toList := by
  refine ⟨fun ctx => ⟨?_, rfl⟩, by decide, by decide⟩
  rw [AutoHatVar.eval, autoHatLoop_eq]
  simp

/--
C3: with restricted generation mode off, `?` evaluates to exactly the
prerequisites whose timestamp is strictly greater than the target's, each
name at most once in first-occurrence order over the prerequisite list
(concretely: target `t` at time 0 and prerequisites `[a, a, b]` with `a`
at −1 and `b` at 1 give just `b`); with restricted generation mode on,
`?` is registered at construction time as the unimplemented-placeholder
variable instead.
-/
theorem autoQuestion_spec :
    (∀ (ts : List Char → Int) (n : DepNode),
      AutoQuestionVar.eval ts ⟨none, n⟩ =
        joinWords (keepFirsts (n.actual_inputs.filter
          (fun ai => ts ai > ts n.output)))) ∧
    (commandEvaluatorAutoVars true).lookup ['?'] =
      some (.base .notImplementedVar) ∧
    (commandEvaluatorAutoVars false).lookup ['?'] =
      some (.base .questionVar) ∧
    AutoQuestionVar.eval
      (fun l => if l = "b".toList then 1 else if l = "t".toList then 0 else -1)
      ⟨none, ⟨"t".toList, ["a".toList, "a".toList, "b".toList],
        none, none, 0, []⟩⟩ = "b".toList := by
  refine ⟨fun ts n => ?_, by decide, by decide, by decide⟩
  rw [AutoQuestionVar.eval, autoQuestionLoop_eq, ← keepFirsts_filter]
  congr 1
  rw [List.filter_filter]
  congr 1
  apply List.filter_congr
  intro a _
  simp [CurrentDepNode]

/--
C2 counterexample: on a pattern node with output pattern `%.o` and output
`foo.o`, `*` evaluates to the stem `"foo"`, which differs from the stem
re-substituted into the pattern text (`"foo.o"`) that the claim describes.
-/
theorem autoStar_no_resubstitution :
    AutoStarVar.eval ⟨none, ⟨"foo.o".toList, [], some "%.o".toList,
        none, 0, []⟩⟩ = "foo".toList ∧
    AutoStarVar.eval ⟨none, ⟨"foo.o".toList, [], some "%.o".toList,
        none, 0, []⟩⟩ ≠
      Pattern.Subst "%.o".toList
        (Pattern.Stem "%.o".toList "foo.o".toList) := by
  constructor
  · decide
  · decide

/--
C2 (amended): with a valid output pattern, `*` evaluates to the wildcard
stem of the node's output matched against that pattern (the stem is not
re-substituted into the pattern text); with an invalid output pattern it
evaluates to the empty string without raising any error.
-/
theorem autoStar_spec (ctx : AutoVarCtx) (pat : List Char) :
    ((CurrentDepNode ctx).output_pattern = some pat →
      AutoStarVar.eval ctx = Pattern.Stem pat (CurrentDepNode ctx).output) ∧
    ((CurrentDepNode ctx).output_pattern = none →
      AutoStarVar.eval ctx = []) := by
  constructor
  · intro h
    simp only [AutoStarVar.eval, h]
  · intro h
    simp only [AutoStarVar.eval, h]

/-- Witness for C2 at concrete nodes: `%.o` applied to `foo.o` yields the
stem, and a node without a pattern yields empty. -/
theorem autoStar_spec_witness :
    (AutoStarVar.eval ⟨none, ⟨"foo.o".toList, [], some "%.o".toList,
        none, 0, []⟩⟩ = Pattern.Stem "%.o".toList "foo.o".toList) ∧
    (AutoStarVar.eval ⟨none, ⟨"x".toList, [], none, none, 0, []⟩⟩ = []) :=
  ⟨(autoStar_spec ⟨none, ⟨"foo.o".toList, [], some "%.o".toList,
      none, 0, []⟩⟩ "%.o".toList).1 rfl,
   (autoStar_spec ⟨none, ⟨"x".toList, [], none, none, 0, []⟩⟩ []).2 rfl⟩

/--
C6: the registered `D` and `F` derived forms evaluate the wrapped base
variable to a string, split it into whitespace-delimited tokens, map each
token through directory-part (`D`) or file-name-part (`F`) extraction, and
rejoin with single spaces, preserving token count and order; a token with
no directory component maps to `"."` under `D` and a bare filename maps to
itself under `F`; base value `"a/b.o c.o"` gives `D` form `"a ."` and `F`
form `"b.o c.o"`.
-/
theorem autoSuffix_spec :
    (∀ (ts : List Char → Int) (ctx : AutoVarCtx) (sym : List Char)
        (b : BaseAutoVar),
      (AutoVarEntry.eval ts ctx sym (.suffixD b)).1 =
        joinWords ((WordScanner (b.eval ts ctx sym).1).map Dirname) ∧
      (AutoVarEntry.eval ts ctx sym (.suffixF b)).1 =
        joinWords ((WordScanner (b.eval ts ctx sym).1).map Basename)) ∧
    (∀ buf : List Char,
      ((WordScanner buf).map Dirname).length = (WordScanner buf).length ∧
      ((WordScanner buf).map Basename).length = (WordScanner buf).length) ∧
    (∀ tok : List Char, '/' ∉ tok →
      Dirname tok = ['.'] ∧ Basename tok = tok) ∧
    AutoSuffixDVar.eval "a/b.o c.o".toList = "a .".toList ∧
    AutoSuffixFVar.eval "a/b.o c.o".toList = "b.o c.o".toList := by
  refine ⟨fun ts ctx sym b => ⟨rfl, rfl⟩, fun buf => ⟨by simp, by simp⟩,
    fun tok htok => ⟨?_, ?_⟩, ?_, ?_⟩
  · have hself : tok.reverse.takeWhile (fun c => c ≠ '/') = tok.reverse :=
      List.takeWhile_eq_self_iff.mpr (fun x hx => by
        simp only [List.mem_reverse] at hx
        simpa using fun hc : x = '/' => htok (hc ▸ hx))
    simp only [ne_eq, decide_not] at hself
    simp [Dirname, hself]
  · have hself : tok.reverse.takeWhile (fun c => c ≠ '/') = tok.reverse :=
      List.takeWhile_eq_self_iff.mpr (fun x hx => by
        simp only [List.mem_reverse] at hx
        simpa using fun hc : x = '/' => htok (hc ▸ hx))
    simp only [ne_eq, decide_not] at hself
    simp [Basename, hself]
  · simp +decide [AutoSuffixDVar.eval, WordScanner, isWS, List.takeWhile,
      List.dropWhile]
  · simp +decide [AutoSuffixFVar.eval, WordScanner, isWS, List.takeWhile,
      List.dropWhile]

/-- Witness for C6 at a concrete token: a bare filename maps to `"."`
under `D` and to itself under `F`. -/
theorem autoSuffix_spec_witness :
    Dirname "c.o".toList = ['.'] ∧ Basename "c.o".toList = "c.o".toList :=
  autoSuffix_spec.2.2.1 "c.o".toList (by decide)

/--
C7: every automatic variable reports itself as function-flavored
(`IsFunc` is true), and requesting its literal unexpanded form
(`AutoVar::String`) yields empty text together with one non-fatal
"not implemented" diagnostic, after which evaluation continues (the
operation returns normally).
-/
theorem autoVar_introspection (sym : List Char) :
    AutoVar.IsFunc = true ∧
    (AutoVar.String sym).1 = [] ∧
    (AutoVar.String sym).2 = [⟨false, autoVarStringMsg sym⟩] ∧
    ∀ d ∈ (AutoVar.String sym).2, d.isFatal = false ∧
      ("is not implemented".toList) <:+: d.msg := by
  refine ⟨rfl, rfl, rfl, fun d hd => ?_⟩
  have hd1 : d = ⟨false, autoVarStringMsg sym⟩ := by
    simpa [AutoVar.String] using hd
  subst hd1
  refine ⟨rfl, "$(value ".toList ++ sym ++ ") ".toList, " yet".toList, ?_⟩
  simp only [autoVarStringMsg, List.append_assoc]
  refine congrArg (fun t => "$(value ".toList ++ t) ?_
  refine congrArg (fun t => sym ++ t) ?_
  decide

/-- Witness for C7 at a concrete symbol and the concrete diagnostic it
reports. -/
theorem autoVar_introspection_witness :
    AutoVar.IsFunc = true ∧
    (AutoVar.String ['@']).1 = [] ∧
    (Diag.mk false (autoVarStringMsg ['@'])).isFatal = false ∧
    ("is not implemented".toList) <:+:
      (Diag.mk false (autoVarStringMsg ['@'])).msg :=
  ⟨(autoVar_introspection ['@']).1,
   (autoVar_introspection ['@']).2.1,
   ((autoVar_introspection ['@']).2.2.2 ⟨false, autoVarStringMsg ['@']⟩
     (List.mem_singleton.mpr rfl)).1,
   ((autoVar_introspection ['@']).2.2.2 ⟨false, autoVarStringMsg ['@']⟩
     (List.mem_singleton.mpr rfl)).2⟩

/--
C1: when, after all templates are processed, the delayed-output queue is
non-empty, `Eval` returns the queued strings first — in queue order, each
as `Command{output := n.output, echo := false, ignore_error := false}` —
followed by the template-produced commands in their original relative
order, and the queue is cleared afterward.
-/
theorem eval_delayed_output_prepended (is_silent_mode : Bool)
    (st0 st1 : EvalState) (n : DepNode) (tcmds : List Command)
    (h : evalTemplates is_silent_mode n.output n.cmds
      { st0 with
          loc := n.loc
          currentScope := n.rule_vars
          evaluatingCommand := true
          currentDepNode := some n } = .ok (tcmds, st1))
    (hne : st1.delayedOutputCommands ≠ []) :
    CommandEvaluator.Eval is_silent_mode st0 n =
      .ok (st1.delayedOutputCommands.map
          (fun c => ⟨n.output, c, false, false⟩) ++ tcmds,
        { st1 with
            delayedOutputCommands := []
            currentScope := none
            evaluatingCommand := false }) := by
  simp only [CommandEvaluator.Eval]
  rw [h]
  simp [hne]

/-- Witness for C1: one template expanding to `echo hi` while enqueuing
delayed-output commands `touch a` and `touch b`. -/
theorem eval_delayed_output_prepended_witness :
    CommandEvaluator.Eval false ⟨0, none, false, [], none⟩
      ⟨"t".toList, [], none, some 7, 3,
        [⟨5, .ok "echo hi".toList,
          ["touch a".toList, "touch b".toList]⟩]⟩ =
      .ok ((["touch a".toList, "touch b".toList].map
          (fun c => ⟨"t".toList, c, false, false⟩)) ++
          [⟨"t".toList, "echo hi".toList, true, false⟩],
        ⟨5, none, false, [],
          some ⟨"t".toList, [], none, some 7, 3,
            [⟨5, .ok "echo hi".toList,
              ["touch a".toList, "touch b".toList]⟩]⟩⟩) :=
  eval_delayed_output_prepended false ⟨0, none, false, [], none⟩
    ⟨5, some 7, true, ["touch a".toList, "touch b".toList],
      some ⟨"t".toList, [], none, some 7, 3,
        [⟨5, .ok "echo hi".toList,
          ["touch a".toList, "touch b".toList]⟩]⟩⟩
    ⟨"t".toList, [], none, some 7, 3,
      [⟨5, .ok "echo hi".toList,
        ["touch a".toList, "touch b".toList]⟩]⟩
    [⟨"t".toList, "echo hi".toList, true, false⟩]
    (by simp +decide [evalTemplates, templateCommands, evalLines,
      lineCommand, ParseCommandPrefixes, parsePrefixLoop, TrimLeftSpace,
      List.dropWhile, isWS, FindEndOfLine, findEOL])
    (by decide)

/--
C8: `Eval` processes command templates in list order, each contributing its
own commands; within one expanded block, the loop splits at unescaped line
terminators and handles the segments in order — each segment is trimmed,
parsed for its own modifiers, and contributes one command exactly when the
remaining text is non-empty (so empty lines are discarded while the scan
continues to the end of the block); a template whose expanded block is
empty after block-level modifier stripping contributes zero commands.
-/
theorem eval_template_line_order :
    (∀ (out : List Char) (ge gi : Bool) (cmds : List Char),
      evalLines out ge gi cmds =
        (splitEOL cmds).filterMap (lineCommand out ge gi)) ∧
    (∀ (is_silent_mode : Bool) (out cmds_buf : List Char),
      (ParseCommandPrefixes cmds_buf (!is_silent_mode) false).1 = [] →
      templateCommands is_silent_mode out cmds_buf = []) ∧
    (∀ (is_silent_mode : Bool) (out : List Char) (tl : List CmdTemplate)
        (st : EvalState),
      (∀ t ∈ tl, ∃ text, t.result = .ok text) →
      ∃ st', evalTemplates is_silent_mode out tl st =
        .ok (tl.flatMap (templateOkCommands is_silent_mode out), st')) := by
  refine ⟨evalLines_eq_split, ?_, evalTemplates_ok_flatMap⟩
  intro m out buf hempty
  simp [templateCommands, hempty]

/-- Witness for C8: a block with an empty middle line is split and the
empty segment discarded, and an all-whitespace block contributes no
commands. -/
theorem eval_template_line_order_witness :
    (evalLines "t".toList true false "echo a\n\n@echo b".toList =
      (splitEOL "echo a\n\n@echo b".toList).filterMap
        (lineCommand "t".toList true false)) ∧
    templateCommands false "t".toList "   ".toList = [] :=
  ⟨eval_template_line_order.1 "t".toList true false
      "echo a\n\n@echo b".toList,
   eval_template_line_order.2.1 false "t".toList "   ".toList
     (by simp +decide [ParseCommandPrefixes, parsePrefixLoop, TrimLeftSpace,
       List.dropWhile, isWS])⟩

/--
C9 counterexample: on a node whose only template expansion aborts with a
fatal condition, `Eval` terminates early with the per-call context still
installed — the propagated state still has scope = the node's rule
variables (not cleared) and the evaluating-command flag still set — so the
claimed restoration does not happen on this exit path.
-/
theorem eval_no_restore_on_abort :
    CommandEvaluator.Eval false ⟨0, none, false, [], none⟩
      ⟨"t".toList, [], none, some 1, 3, [⟨5, .error (), []⟩]⟩ =
      .error ⟨5, some 1, true, [],
        some ⟨"t".toList, [], none, some 1, 3, [⟨5, .error (), []⟩]⟩⟩ ∧
    (⟨5, some 1, true, [],
        some ⟨"t".toList, [], none, some 1, 3, [⟨5, .error (), []⟩]⟩⟩ :
      EvalState).currentScope ≠ none ∧
    (⟨5, some 1, true, [],
        some ⟨"t".toList, [], none, some 1, 3, [⟨5, .error (), []⟩]⟩⟩ :
      EvalState).evaluatingCommand ≠ false := by
  refine ⟨?_, by decide, by decide⟩
  decide

/--
C9 (amended): every call to `Eval` installs the per-call context
(location, scope = node's rule variables, evaluating-command flag, current
node) and clears the scope and the flag before returning on the normal
path; when a fatal condition from template expansion terminates the call
early, no restoration runs — the propagated state still carries the
installed scope and flag.
-/
theorem eval_context_install_restore (is_silent_mode : Bool)
    (st0 : EvalState) (n : DepNode) :
    (∀ cs st', CommandEvaluator.Eval is_silent_mode st0 n = .ok (cs, st') →
      st'.currentScope = none ∧ st'.evaluatingCommand = false ∧
      st'.currentDepNode = some n) ∧
    (∀ st', CommandEvaluator.Eval is_silent_mode st0 n = .error st' →
      st'.currentScope = n.rule_vars ∧ st'.evaluatingCommand = true ∧
      st'.currentDepNode = some n) := by
  have hframe := evalTemplates_frame is_silent_mode n.output n.cmds
    { st0 with
        loc := n.loc
        currentScope := n.rule_vars
        evaluatingCommand := true
        currentDepNode := some n }
  constructor
  · intro cs st' h
    rcases hrec : evalTemplates is_silent_mode n.output n.cmds
        { st0 with
            loc := n.loc
            currentScope := n.rule_vars
            evaluatingCommand := true
            currentDepNode := some n } with st2 | p
    · simp only [CommandEvaluator.Eval, hrec] at h
      exact Except.noConfusion h
    · obtain ⟨cs0, st2⟩ := p
      have hfr := hframe.2 cs0 st2 hrec
      simp only [CommandEvaluator.Eval, hrec, Except.ok.injEq,
        Prod.mk.injEq] at h
      obtain ⟨h1, h2⟩ := h
      subst h2
      refine ⟨rfl, rfl, ?_⟩
      by_cases hcond : st2.delayedOutputCommands ≠ []
      · simp only [if_pos hcond]
        exact hfr.2.2
      · simp only [if_neg hcond]
        exact hfr.2.2
  · intro st' h
    rcases hrec : evalTemplates is_silent_mode n.output n.cmds
        { st0 with
            loc := n.loc
            currentScope := n.rule_vars
            evaluatingCommand := true
            currentDepNode := some n } with st2 | p
    · have hfr := hframe.1 st2 hrec
      simp only [CommandEvaluator.Eval, hrec, Except.error.injEq] at h
      subst h
      exact hfr
    · obtain ⟨cs0, st2⟩ := p
      simp only [CommandEvaluator.Eval, hrec] at h
      exact Except.noConfusion h

/-- Witness for the amended C9 on a node that evaluates normally: the
returned state has the scope and the flag cleared and still points at the
node. -/
theorem eval_context_install_restore_witness :
    (⟨5, none, false, [],
        some ⟨"t".toList, [], none, some 7, 3,
          [⟨5, .ok "x".toList, []⟩]⟩⟩ : EvalState).currentScope = none ∧
    (⟨5, none, false, [],
        some ⟨"t".toList, [], none, some 7, 3,
          [⟨5, .ok "x".toList, []⟩]⟩⟩ : EvalState).evaluatingCommand = false ∧
    (⟨5, none, false, [],
        some ⟨"t".toList, [], none, some 7, 3,
          [⟨5, .ok "x".toList, []⟩]⟩⟩ : EvalState).currentDepNode =
      some ⟨"t".toList, [], none, some 7, 3, [⟨5, .ok "x".toList, []⟩]⟩ :=
  (eval_context_install_restore false ⟨0, none, false, [], none⟩
      ⟨"t".toList, [], none, some 7, 3, [⟨5, .ok "x".toList, []⟩]⟩).1
    [⟨"t".toList, "x".toList, true, false⟩]
    ⟨5, none, false, [],
      some ⟨"t".toList, [], none, some 7, 3, [⟨5, .ok "x".toList, []⟩]⟩⟩
    (by simp +decide [CommandEvaluator.Eval, evalTemplates,
      templateCommands, evalLines, lineCommand, ParseCommandPrefixes,
      parsePrefixLoop, TrimLeftSpace, List.dropWhile, isWS, FindEndOfLine,
      findEOL])

end Kati
